import Mathlib

/-!
Verification development for the custom detection evaluation engine
(`evaluate_custom_metric.py`): box geometry, IoU/IoP overlap metrics,
greedy matching, and average-precision integration.

Real numbers of the source (Python floats) are embedded as exact
rationals `ℚ`; all functions are translated directly from the source.
-/

/-- A box in `[x, y, w, h]` form (source represents it as a 4-element list). -/
structure Box where
  x : ℚ
  y : ℚ
  w : ℚ
  h : ℚ
deriving DecidableEq

/-- Source `calculate_area` (lines 6-10): zero if either raw dimension is
negative, otherwise `w * h`. -/
def calculate_area (box : Box) : ℚ :=
  if box.w < 0 ∨ box.h < 0 then 0 else box.w * box.h

/-- Source `calculate_intersection` (lines 12-22): corner-form overlap,
clamped at zero in each dimension. -/
def calculate_intersection (box_a box_b : Box) : ℚ :=
  let ix1 := max box_a.x box_b.x
  let iy1 := max box_a.y box_b.y
  let ix2 := min (box_a.x + box_a.w) (box_b.x + box_b.w)
  let iy2 := min (box_a.y + box_a.h) (box_b.y + box_b.h)
  let iw := max (ix2 - ix1) 0
  let ih := max (iy2 - iy1) 0
  iw * ih

/-- The numerical-stability constant `1e-8` used at lines 76, 78 and 110. -/
def eps : ℚ := 1 / 100000000

/-- The per-pair IoU value computed at lines 74-76:
`intersection / (pred_area + gt_area - intersection + 1e-8)`. -/
def iou_metric (pred_box gt_box : Box) : ℚ :=
  calculate_intersection pred_box gt_box /
    (calculate_area pred_box + calculate_area gt_box -
      calculate_intersection pred_box gt_box + eps)

/-- The per-pair IoP value computed at line 78:
`intersection / (pred_area + 1e-8)`. -/
def iop_metric (pred_box gt_box : Box) : ℚ :=
  calculate_intersection pred_box gt_box / (calculate_area pred_box + eps)

/-- A scored prediction record `{image_id, bbox, score}` (category is fixed
per evaluation call and therefore not carried). -/
structure Prediction where
  image_id : ℕ
  bbox : Box
  score : ℚ
deriving DecidableEq

/-- A ground-truth record of `gt_by_img` (line 44): a box plus its
`detected` flag. -/
structure GTEntry where
  bbox : Box
  detected : Bool
deriving DecidableEq

/-- The per-image ground-truth table `gt_by_img`, as an association list
keyed by image id (Python dict keys are unique; lookup takes the first match). -/
abbrev GTState := List (ℕ × List GTEntry)

/-- Placeholder entry for out-of-range list reads (never reached on the
in-range indices delivered by `findBest`). -/
def dfltEntry : GTEntry := { bbox := ⟨0, 0, 0, 0⟩, detected := false }

/-- Dictionary lookup (`dict.get(key)`), first match in the association list. -/
def dictGet {β : Type} : List (ℕ × β) → ℕ → Option β
  | [], _ => none
  | (k, v) :: rest, img => if k = img then some v else dictGet rest img

/-- Metric dispatch of lines 73-80: the metric values of a prediction box
against every ground-truth box, or the `ValueError` of line 80. -/
def computeMetrics (metric : String) (pred_box : Box) (gt_boxes : List Box) :
    Except String (List ℚ) :=
  if metric = "iou" then
    .ok (gt_boxes.map (fun gt_box => iou_metric pred_box gt_box))
  else if metric = "iop" then
    .ok (gt_boxes.map (fun gt_box => iop_metric pred_box gt_box))
  else
    .error ("Unknown metric: " ++ metric)

/-- The best-candidate loop of lines 82-89: running maximum starts at the
threshold; a candidate replaces the current best only when strictly greater. -/
def findBestGo (best : Option ℕ) (max_metric : ℚ) (i : ℕ) : List ℚ → Option ℕ
  | [] => best
  | m :: ms =>
    if m > max_metric then findBestGo (some i) m (i + 1) ms
    else findBestGo best max_metric (i + 1) ms

/-- Entry point of the best-candidate loop: `best_gt_idx = -1` is `none`,
`max_metric = iou_threshold`. -/
def findBest (iou_threshold : ℚ) (metrics : List ℚ) : Option ℕ :=
  findBestGo none iou_threshold 0 metrics

/-- In-place flag write `gt_list[best_gt_idx]['detected'] = True` (line 93). -/
def markDetected : List GTEntry → ℕ → List GTEntry
  | [], _ => []
  | e :: es, 0 => { e with detected := true } :: es
  | e :: es, n + 1 => e :: markDetected es n

/-- Store an updated per-image list back into the table (Python mutates the
looked-up list in place; here the first entry with the key is replaced). -/
def updateGT : GTState → ℕ → List GTEntry → GTState
  | [], _, _ => []
  | (k, v) :: rest, img, newList =>
    if k = img then (k, newList) :: rest else (k, v) :: updateGT rest img newList

/-- One iteration of the prediction loop (lines 57-101). Returns the updated
table and the `(tp, fp)` pair appended for this prediction. -/
def processPred (metric : String) (iou_threshold : ℚ) (st : GTState) (pred : Prediction) :
    Except String (GTState × ℕ × ℕ) :=
  let gt_list := (dictGet st pred.image_id).getD []
  if gt_list.isEmpty then
    .ok (st, 0, 1)
  else
    match computeMetrics metric pred.bbox (gt_list.map (fun g => g.bbox)) with
    | .error e => .error e
    | .ok metrics =>
      match findBest iou_threshold metrics with
      | some best_gt_idx =>
        if (gt_list.getD best_gt_idx dfltEntry).detected = false then
          .ok (updateGT st pred.image_id (markDetected gt_list best_gt_idx), 1, 0)
        else
          .ok (st, 0, 1)
      | none => .ok (st, 0, 1)

/-- The whole prediction loop: the `(tp, fp)` pairs in ranked order. -/
def runMatcher (metric : String) (iou_threshold : ℚ) :
    GTState → List Prediction → Except String (List (ℕ × ℕ))
  | _, [] => .ok []
  | st, p :: ps =>
    match processPred metric iou_threshold st p with
    | .error e => .error e
    | .ok (st2, tp, fp) =>
      match runMatcher metric iou_threshold st2 ps with
      | .error e => .error e
      | .ok rest => .ok ((tp, fp) :: rest)

/-- The fresh flag table built at lines 41-44: every `detected` flag `false`. -/
def initState (ground_truths : List (ℕ × List Box)) : GTState :=
  ground_truths.map (fun p => (p.1, p.2.map (fun box => { bbox := box, detected := false })))

/-- `total_gt_count` of line 52. -/
def totalGT (ground_truths : List (ℕ × List Box)) : ℕ :=
  (ground_truths.map (fun p => p.2.length)).sum

/-- Comparator of the stable descending score sort (line 55,
`sorted(..., key=score, reverse=True)`). -/
def predCmp (a b : Prediction) : Bool := decide (b.score ≤ a.score)

/-- Running sums, `np.cumsum`. -/
def cumsumGo (acc : ℕ) : List ℕ → List ℕ
  | [] => []
  | x :: xs => (acc + x) :: cumsumGo (acc + x) xs

/-- `np.cumsum` (lines 107-108). -/
def cumsum (l : List ℕ) : List ℕ := cumsumGo 0 l

/-- Backward running-maximum pass of lines 28-29:
`precisions[i] = max(precisions[i], precisions[i+1])` from the tail forward. -/
def envelope : List ℚ → List ℚ
  | [] => []
  | p :: rest =>
    let r := envelope rest
    max p (r.headD p) :: r

/-- Discrete integration of lines 30-31: sum `(recall[i] - recall[i-1]) *
precision[i]` over the indices where the recall changes. -/
def apSum : List ℚ → List ℚ → ℚ
  | r0 :: r1 :: rt, _ :: p1 :: pt =>
    (if r1 = r0 then 0 else (r1 - r0) * p1) + apSum (r1 :: rt) (p1 :: pt)
  | _, _ => 0

/-- Source `calculate_ap` (lines 24-32): sentinel point `(0, 1)` prepended,
then envelope, then integration at recall changes. -/
def calculate_ap (recalls precisions : List ℚ) : ℚ :=
  apSum (0 :: recalls) (envelope (1 :: precisions))

/-- Lines 50-112 of `evaluate_predictions_for_class`: everything after the
flag table and the ground-truth total are fixed. -/
def evaluateCore (gt_by_img : GTState) (total_gt_count : ℕ) (predictions : List Prediction)
    (metric : String) (iou_threshold : ℚ) : Except String ℚ :=
  let sorted_preds := predictions.mergeSort predCmp
  match runMatcher metric iou_threshold gt_by_img sorted_preds with
  | .error e => .error e
  | .ok tpfp =>
    if total_gt_count = 0 then
      .ok (if predictions.length > 0 then 0 else 1)
    else
      let acc_tp := cumsum (tpfp.map (fun q => q.1))
      let acc_fp := cumsum (tpfp.map (fun q => q.2))
      let recalls := acc_tp.map (fun t : ℕ => (t : ℚ) / (total_gt_count : ℚ))
      let precisions :=
        (acc_tp.zip acc_fp).map (fun q => (q.1 : ℚ) / ((q.2 : ℚ) + (q.1 : ℚ) + eps))
      .ok (calculate_ap recalls precisions)

/-- Source `evaluate_predictions_for_class` (lines 34-112): builds the fresh
flag table and the ground-truth total, then runs the matching/integration
pipeline. -/
def evaluate_predictions_for_class (ground_truths : List (ℕ × List Box))
    (predictions : List Prediction) (metric : String) (iou_threshold : ℚ) :
    Except String ℚ :=
  evaluateCore (initState ground_truths) (totalGT ground_truths)
    predictions metric iou_threshold

/-- Number of `detected = true` entries in one per-image list. -/
def countTrueList (l : List GTEntry) : ℕ := l.countP (fun e => e.detected)

/-- Number of `detected = true` entries in the whole table. -/
def countTrue (st : GTState) : ℕ := (st.map (fun p => countTrueList p.2)).sum

/-- Number of ground-truth entries in the whole table. -/
def countEntries (st : GTState) : ℕ := (st.map (fun p => p.2.length)).sum

/-- The `detected` flag at an index of a per-image list (`false` out of range). -/
def flagD (l : List GTEntry) (j : ℕ) : Bool := (l.getD j dfltEntry).detected

/-- The `detected` flag of annotation `j` of image `img` in the table. -/
def flagAt (st : GTState) (img j : ℕ) : Bool := flagD ((dictGet st img).getD []) j

/-! ### Lemmas about the best-candidate loop -/

theorem findBestGo_shape (l : List ℚ) : ∀ (best : Option ℕ) (maxm : ℚ) (i : ℕ),
    findBestGo best maxm i l =
      match findBestGo none maxm i l with
      | some j => some j
      | none => best := by
  induction l with
  | nil => intro best maxm i; rfl
  | cons m ms ih =>
    intro best maxm i
    by_cases h : m > maxm
    · simp only [findBestGo, if_pos h]
      rw [ih (some i) m (i + 1)]
      cases findBestGo none m (i + 1) ms <;> rfl
    · simp only [findBestGo, if_neg h]
      rw [ih best maxm (i + 1)]

theorem findBestGo_none_iff (l : List ℚ) : ∀ (maxm : ℚ) (i : ℕ),
    findBestGo none maxm i l = none ↔ ∀ m ∈ l, m ≤ maxm := by
  induction l with
  | nil => intro maxm i; simp [findBestGo]
  | cons m ms ih =>
    intro maxm i
    by_cases h : m > maxm
    · constructor
      · intro hnone
        exfalso
        revert hnone
        simp only [findBestGo, if_pos h]
        rw [findBestGo_shape]
        cases findBestGo none m (i + 1) ms <;> simp
      · intro hall
        exact absurd h (not_lt.mpr (hall m (List.mem_cons_self m ms)))
    · simp only [findBestGo, if_neg h]
      rw [ih maxm (i + 1)]
      constructor
      · intro hall x hx
        rcases List.mem_cons.mp hx with rfl | hx
        · exact not_lt.mp h
        · exact hall x hx
      · intro hall x hx
        exact hall x (List.mem_cons_of_mem m hx)

theorem findBestGo_some_spec (l : List ℚ) : ∀ (maxm : ℚ) (i j : ℕ),
    findBestGo none maxm i l = some j →
    ∃ k, ∃ hk : k < l.length, j = i + k ∧ maxm < l[k] ∧
      (∀ n (hn : n < l.length), l[n] ≤ l[k]) ∧
      (∀ n (hn : n < l.length), n < k → l[n] < l[k]) := by
  induction l with
  | nil => intro maxm i j h; simp [findBestGo] at h
  | cons m ms ih =>
    intro maxm i j h
    by_cases hm : m > maxm
    · rw [show findBestGo none maxm i (m :: ms) = findBestGo (some i) m (i + 1) ms from by
        simp only [findBestGo, if_pos hm], findBestGo_shape] at h
      cases hfix : findBestGo none m (i + 1) ms with
      | none =>
        rw [hfix] at h
        simp only [Option.some.injEq] at h
        have hall : ∀ x ∈ ms, x ≤ m := (findBestGo_none_iff ms m (i + 1)).mp hfix
        refine ⟨0, by simp, by omega, by simpa using hm, ?_, ?_⟩
        · intro n hn
          cases n with
          | zero => simp
          | succ n =>
            simp only [List.getElem_cons_succ, List.getElem_cons_zero]
            exact hall _ (List.getElem_mem _)
        · intro n hn hcontra
          omega
      | some j2 =>
        rw [hfix] at h
        simp only [Option.some.injEq] at h
        subst h
        obtain ⟨k, hk, hj2, hgt, hmax, hfirst⟩ := ih m (i + 1) j2 hfix
        have hk1 : k + 1 < (m :: ms).length := by simp only [List.length_cons]; omega
        refine ⟨k + 1, hk1, by omega, ?_, ?_, ?_⟩
        · simpa using lt_trans hm hgt
        · intro n hn
          cases n with
          | zero => simpa using le_of_lt hgt
          | succ n =>
            simp only [List.getElem_cons_succ]
            exact hmax n (by simp only [List.length_cons] at hn; omega)
        · intro n hn hlt
          cases n with
          | zero => simpa using hgt
          | succ n =>
            simp only [List.getElem_cons_succ]
            exact hfirst n (by simp only [List.length_cons] at hn; omega) (by omega)
    · rw [show findBestGo none maxm i (m :: ms) = findBestGo none maxm (i + 1) ms from by
        simp only [findBestGo, if_neg hm]] at h
      obtain ⟨k, hk, hj, hgt, hmax, hfirst⟩ := ih maxm (i + 1) j h
      have hk1 : k + 1 < (m :: ms).length := by simp only [List.length_cons]; omega
      refine ⟨k + 1, hk1, by omega, by simpa using hgt, ?_, ?_⟩
      · intro n hn
        cases n with
        | zero => simpa using le_of_lt (lt_of_le_of_lt (not_lt.mp hm) hgt)
        | succ n =>
          simp only [List.getElem_cons_succ]
          exact hmax n (by simp only [List.length_cons] at hn; omega)
      · intro n hn hlt
        cases n with
        | zero => simpa using lt_of_le_of_lt (not_lt.mp hm) hgt
        | succ n =>
          simp only [List.getElem_cons_succ]
          exact hfirst n (by simp only [List.length_cons] at hn; omega) (by omega)

theorem findBest_none_iff (thr : ℚ) (ms : List ℚ) :
    findBest thr ms = none ↔ ∀ m ∈ ms, m ≤ thr :=
  findBestGo_none_iff ms thr 0

theorem findBest_some_spec (thr : ℚ) (ms : List ℚ) (j : ℕ)
    (h : findBest thr ms = some j) :
    ∃ hj : j < ms.length, thr < ms[j] ∧
      (∀ n (hn : n < ms.length), ms[n] ≤ ms[j]) ∧
      (∀ n (hn : n < ms.length), n < j → ms[n] < ms[j]) := by
  obtain ⟨k, hk, hjk, hgt, hmax, hfirst⟩ := findBestGo_some_spec ms thr 0 j h
  have hjeq : j = k := by omega
  subst hjeq
  exact ⟨hk, hgt, hmax, hfirst⟩

theorem findBest_some_lt (thr : ℚ) (ms : List ℚ) (j : ℕ)
    (h : findBest thr ms = some j) : j < ms.length := by
  obtain ⟨hj, -⟩ := findBest_some_spec thr ms j h
  exact hj

/-! ### Geometry lemmas -/

theorem calculate_intersection_nonneg (a b : Box) : 0 ≤ calculate_intersection a b := by
  simp only [calculate_intersection]
  exact mul_nonneg (le_max_right _ _) (le_max_right _ _)

theorem calculate_area_nonneg (b : Box) : 0 ≤ calculate_area b := by
  simp only [calculate_area]
  split
  · exact le_refl 0
  · rename_i h
    push_neg at h
    exact mul_nonneg h.1 h.2

theorem pos_area_dims (b : Box) (h : 0 < calculate_area b) : 0 < b.w ∧ 0 < b.h := by
  simp only [calculate_area] at h
  split at h
  · exact absurd h (lt_irrefl 0)
  · rename_i hcond
    push_neg at hcond
    constructor
    · rcases lt_or_eq_of_le hcond.1 with hw | hw
      · exact hw
      · exfalso; rw [← hw] at h; simp at h
    · rcases lt_or_eq_of_le hcond.2 with hh | hh
      · exact hh
      · exfalso; rw [← hh] at h; simp at h

theorem pos_area_eq (b : Box) (h : 0 < calculate_area b) :
    calculate_area b = b.w * b.h := by
  obtain ⟨hw, hh⟩ := pos_area_dims b h
  simp only [calculate_area]
  rw [if_neg]
  push_neg
  exact ⟨le_of_lt hw, le_of_lt hh⟩

theorem calculate_intersection_le_area (a b : Box) (hw : 0 ≤ b.w) (hh : 0 ≤ b.h) :
    calculate_intersection a b ≤ b.w * b.h := by
  simp only [calculate_intersection]
  have h1 : max (min (a.x + a.w) (b.x + b.w) - max a.x b.x) 0 ≤ b.w := by
    apply max_le _ hw
    have hmin : min (a.x + a.w) (b.x + b.w) ≤ b.x + b.w := min_le_right _ _
    have hmax : b.x ≤ max a.x b.x := le_max_right _ _
    linarith
  have h2 : max (min (a.y + a.h) (b.y + b.h) - max a.y b.y) 0 ≤ b.h := by
    apply max_le _ hh
    have hmin : min (a.y + a.h) (b.y + b.h) ≤ b.y + b.h := min_le_right _ _
    have hmax : b.y ≤ max a.y b.y := le_max_right _ _
    linarith
  exact mul_le_mul h1 h2 (le_max_right _ _) hw

/-! ### Envelope lemmas -/

theorem envelope_nil : envelope [] = [] := rfl

theorem envelope_cons (p : ℚ) (rest : List ℚ) :
    envelope (p :: rest) = max p ((envelope rest).headD p) :: envelope rest := rfl

theorem envelope_chain (l : List ℚ) : List.Chain' (fun a b => b ≤ a) (envelope l) := by
  induction l with
  | nil => simp [envelope_nil]
  | cons p rest ih =>
    rw [envelope_cons]
    rw [List.chain'_cons']
    refine ⟨?_, ih⟩
    intro y hy
    cases henv : envelope rest with
    | nil => rw [henv] at hy; simp at hy
    | cons a t =>
      rw [henv] at hy
      simp only [List.head?_cons, Option.mem_def, Option.some.injEq] at hy
      subst hy
      simp only [List.headD_cons]
      exact le_max_right _ _

theorem envelope_le_one (l : List ℚ) (h : ∀ x ∈ l, x ≤ 1) :
    ∀ x ∈ envelope l, x ≤ 1 := by
  induction l with
  | nil => simp [envelope_nil]
  | cons p rest ih =>
    rw [envelope_cons]
    intro x hx
    have hp : p ≤ 1 := h p (List.mem_cons_self p rest)
    have hrest : ∀ x ∈ rest, x ≤ 1 := fun x hx => h x (List.mem_cons_of_mem p hx)
    rcases List.mem_cons.mp hx with rfl | hx
    · apply max_le hp
      cases henv : envelope rest with
      | nil => simpa using hp
      | cons a t =>
        simp only [List.headD_cons]
        exact ih hrest a (by rw [henv]; exact List.mem_cons_self a t)
    · exact ih hrest x hx

theorem envelope_nonneg (l : List ℚ) (h : ∀ x ∈ l, 0 ≤ x) :
    ∀ x ∈ envelope l, 0 ≤ x := by
  induction l with
  | nil => simp [envelope_nil]
  | cons p rest ih =>
    rw [envelope_cons]
    intro x hx
    have hp : 0 ≤ p := h p (List.mem_cons_self p rest)
    have hrest : ∀ x ∈ rest, 0 ≤ x := fun x hx => h x (List.mem_cons_of_mem p hx)
    rcases List.mem_cons.mp hx with rfl | hx
    · exact le_trans hp (le_max_left _ _)
    · exact ih hrest x hx

/-! ### Integration lemmas -/

theorem apSum_nil (P : List ℚ) : apSum [] P = 0 := rfl

theorem apSum_single (r0 : ℚ) (P : List ℚ) : apSum [r0] P = 0 := rfl

theorem apSum_nil_right (R : List ℚ) : apSum R [] = 0 := by
  cases R with
  | nil => rfl
  | cons r0 R2 => cases R2 <;> rfl

theorem apSum_single_right (R : List ℚ) (p0 : ℚ) : apSum R [p0] = 0 := by
  cases R with
  | nil => rfl
  | cons r0 R2 => cases R2 <;> rfl

theorem apSum_cons2 (r0 r1 p0 p1 : ℚ) (rt pt : List ℚ) :
    apSum (r0 :: r1 :: rt) (p0 :: p1 :: pt) =
      (if r1 = r0 then 0 else (r1 - r0) * p1) + apSum (r1 :: rt) (p1 :: pt) := rfl

theorem getLastD_cases {α : Type} (l : List α) (d : α) :
    l.getLastD d = d ∨ l.getLastD d ∈ l := by
  induction l generalizing d with
  | nil => left; rfl
  | cons a t ih =>
    rw [List.getLastD_cons]
    rcases ih a with h | h
    · right; rw [h]; exact List.mem_cons_self a t
    · right; exact List.mem_cons_of_mem a h

theorem chain_le_getLastD (rt : List ℚ) : ∀ (r0 : ℚ),
    List.Chain' (fun a b => a ≤ b) (r0 :: rt) → r0 ≤ rt.getLastD r0 := by
  induction rt with
  | nil => intro r0 _; rfl
  | cons r1 rt2 ih =>
    intro r0 h
    rw [List.getLastD_cons]
    obtain ⟨h01, h2⟩ := List.chain'_cons.mp h
    exact le_trans h01 (ih r1 h2)

theorem apSum_nonneg (R : List ℚ) : ∀ (P : List ℚ),
    List.Chain' (fun a b => a ≤ b) R → (∀ x ∈ P, 0 ≤ x) → 0 ≤ apSum R P := by
  induction R with
  | nil => intro P _ _; rw [apSum_nil]
  | cons r0 R2 ih =>
    cases R2 with
    | nil => intro P _ _; rw [apSum_single]
    | cons r1 rt =>
      intro P hc hp
      cases P with
      | nil => rw [apSum_nil_right]
      | cons p0 P2 =>
        cases P2 with
        | nil => rw [apSum_single_right]
        | cons p1 pt =>
          rw [apSum_cons2]
          obtain ⟨h01, hc2⟩ := List.chain'_cons.mp hc
          have hterm : 0 ≤ (if r1 = r0 then 0 else (r1 - r0) * p1) := by
            split
            · exact le_refl 0
            · exact mul_nonneg (by linarith) (hp p1 (by simp))
          have hrest := ih (p1 :: pt) hc2 (fun x hx => hp x (List.mem_cons_of_mem p0 hx))
          linarith

theorem apSum_le (rt : List ℚ) : ∀ (r0 : ℚ) (P : List ℚ),
    List.Chain' (fun a b => a ≤ b) (r0 :: rt) → (∀ x ∈ P, x ≤ 1) →
    apSum (r0 :: rt) P ≤ rt.getLastD r0 - r0 := by
  induction rt with
  | nil =>
    intro r0 P _ _
    rw [apSum_single]
    simp
  | cons r1 rt2 ih =>
    intro r0 P hc hp
    obtain ⟨h01, hc2⟩ := List.chain'_cons.mp hc
    rw [List.getLastD_cons]
    have hlast : r0 ≤ rt2.getLastD r1 := le_trans h01 (chain_le_getLastD rt2 r1 hc2)
    cases P with
    | nil =>
      rw [apSum_nil_right]
      linarith
    | cons p0 P2 =>
      cases P2 with
      | nil =>
        rw [apSum_single_right]
        linarith
      | cons p1 pt =>
        rw [apSum_cons2]
        have hterm : (if r1 = r0 then 0 else (r1 - r0) * p1) ≤ r1 - r0 := by
          split
          · rename_i heq; rw [heq]; simp
          · exact mul_le_of_le_one_right (by linarith) (hp p1 (by simp))
        have hrest := ih r1 (p1 :: pt) hc2 (fun x hx => hp x (List.mem_cons_of_mem p0 hx))
        linarith

theorem calculate_ap_bounds (recalls precisions : List ℚ)
    (hchain : List.Chain' (fun a b => a ≤ b) ((0 : ℚ) :: recalls))
    (hr1 : ∀ x ∈ recalls, x ≤ 1)
    (hp0 : ∀ x ∈ precisions, 0 ≤ x)
    (hp1 : ∀ x ∈ precisions, x ≤ 1) :
    0 ≤ calculate_ap recalls precisions ∧ calculate_ap recalls precisions ≤ 1 := by
  have hq0 : ∀ x ∈ (1 : ℚ) :: precisions, 0 ≤ x := by
    intro x hx
    rcases List.mem_cons.mp hx with rfl | hx
    · norm_num
    · exact hp0 x hx
  have hq1 : ∀ x ∈ (1 : ℚ) :: precisions, x ≤ 1 := by
    intro x hx
    rcases List.mem_cons.mp hx with rfl | hx
    · exact le_refl 1
    · exact hp1 x hx
  have henv0 := envelope_nonneg _ hq0
  have henv1 := envelope_le_one _ hq1
  constructor
  · exact apSum_nonneg _ _ hchain henv0
  · have h := apSum_le recalls 0 (envelope (1 :: precisions)) hchain henv1
    have hlast : recalls.getLastD 0 ≤ 1 := by
      rcases getLastD_cases recalls (0 : ℚ) with hd | hd
      · rw [hd]; norm_num
      · exact hr1 _ hd
    calc calculate_ap recalls precisions ≤ recalls.getLastD 0 - 0 := h
    _ ≤ 1 := by linarith

/-! ### Flag-table lemmas -/

theorem countTrue_cons (k : ℕ) (w : List GTEntry) (rest : GTState) :
    countTrue ((k, w) :: rest) = countTrueList w + countTrue rest := by
  simp [countTrue]

theorem countEntries_cons (k : ℕ) (w : List GTEntry) (rest : GTState) :
    countEntries ((k, w) :: rest) = w.length + countEntries rest := by
  simp [countEntries]

theorem countTrueList_le_length (l : List GTEntry) : countTrueList l ≤ l.length :=
  List.countP_le_length _

theorem countTrue_le_countEntries (st : GTState) : countTrue st ≤ countEntries st := by
  induction st with
  | nil => exact le_refl 0
  | cons p rest ih =>
    obtain ⟨k, w⟩ := p
    rw [countTrue_cons, countEntries_cons]
    exact Nat.add_le_add (countTrueList_le_length w) ih

theorem markDetected_length (l : List GTEntry) : ∀ i, (markDetected l i).length = l.length := by
  induction l with
  | nil => intro i; rfl
  | cons e es ih =>
    intro i
    cases i with
    | zero => rfl
    | succ n => simp only [markDetected, List.length_cons, ih n]

theorem markDetected_count (l : List GTEntry) : ∀ i, i < l.length → flagD l i = false →
    countTrueList (markDetected l i) = countTrueList l + 1 := by
  induction l with
  | nil => intro i hi; simp at hi
  | cons e es ih =>
    intro i hi hflag
    cases i with
    | zero =>
      have he : e.detected = false := hflag
      simp only [markDetected, countTrueList, List.countP_cons, he]
      simp
    | succ n =>
      have hn : n < es.length := by simp only [List.length_cons] at hi; omega
      have hf : flagD es n = false := hflag
      simp only [markDetected, countTrueList, List.countP_cons] at *
      rw [ih n hn hf]
      omega

theorem markDetected_flag_mono (l : List GTEntry) : ∀ i j, flagD l j = true →
    flagD (markDetected l i) j = true := by
  induction l with
  | nil => intro i j h; simp [flagD, dfltEntry, List.getD] at h
  | cons e es ih =>
    intro i j h
    cases i with
    | zero =>
      cases j with
      | zero => rfl
      | succ n => exact h
    | succ m =>
      cases j with
      | zero => exact h
      | succ n => exact ih m n h

theorem updateGT_counts (st : GTState) : ∀ (img : ℕ) (old v : List GTEntry),
    dictGet st img = some old →
    countTrue (updateGT st img v) + countTrueList old = countTrue st + countTrueList v := by
  induction st with
  | nil => intro img old v h; simp [dictGet] at h
  | cons p rest ih =>
    intro img old v h
    obtain ⟨k, w⟩ := p
    by_cases hk : k = img
    · rw [show dictGet ((k, w) :: rest) img = some w from by rw [dictGet, if_pos hk]] at h
      simp only [Option.some.injEq] at h
      subst h
      rw [show updateGT ((k, w) :: rest) img v = (k, v) :: rest from by rw [updateGT, if_pos hk]]
      rw [countTrue_cons, countTrue_cons]
      omega
    · rw [show dictGet ((k, w) :: rest) img = dictGet rest img from by rw [dictGet, if_neg hk]] at h
      rw [show updateGT ((k, w) :: rest) img v = (k, w) :: updateGT rest img v from by
        rw [updateGT, if_neg hk]]
      rw [countTrue_cons, countTrue_cons]
      have := ih img old v h
      omega

theorem updateGT_entries (st : GTState) : ∀ (img : ℕ) (old v : List GTEntry),
    dictGet st img = some old →
    countEntries (updateGT st img v) + old.length = countEntries st + v.length := by
  induction st with
  | nil => intro img old v h; simp [dictGet] at h
  | cons p rest ih =>
    intro img old v h
    obtain ⟨k, w⟩ := p
    by_cases hk : k = img
    · rw [show dictGet ((k, w) :: rest) img = some w from by rw [dictGet, if_pos hk]] at h
      simp only [Option.some.injEq] at h
      subst h
      rw [show updateGT ((k, w) :: rest) img v = (k, v) :: rest from by rw [updateGT, if_pos hk]]
      rw [countEntries_cons, countEntries_cons]
      omega
    · rw [show dictGet ((k, w) :: rest) img = dictGet rest img from by rw [dictGet, if_neg hk]] at h
      rw [show updateGT ((k, w) :: rest) img v = (k, w) :: updateGT rest img v from by
        rw [updateGT, if_neg hk]]
      rw [countEntries_cons, countEntries_cons]
      have := ih img old v h
      omega

theorem dictGet_updateGT_self (st : GTState) : ∀ (img : ℕ) (old v : List GTEntry),
    dictGet st img = some old →
    dictGet (updateGT st img v) img = some v := by
  induction st with
  | nil => intro img old v h; simp [dictGet] at h
  | cons p rest ih =>
    intro img old v h
    obtain ⟨k, w⟩ := p
    by_cases hk : k = img
    · rw [show updateGT ((k, w) :: rest) img v = (k, v) :: rest from by rw [updateGT, if_pos hk]]
      rw [dictGet, if_pos hk]
    · rw [show dictGet ((k, w) :: rest) img = dictGet rest img from by rw [dictGet, if_neg hk]] at h
      rw [show updateGT ((k, w) :: rest) img v = (k, w) :: updateGT rest img v from by
        rw [updateGT, if_neg hk]]
      rw [dictGet, if_neg hk]
      exact ih img old v h

theorem dictGet_updateGT_ne (st : GTState) : ∀ (img img2 : ℕ) (v : List GTEntry),
    img2 ≠ img → dictGet (updateGT st img v) img2 = dictGet st img2 := by
  induction st with
  | nil => intro img img2 v _; rfl
  | cons p rest ih =>
    intro img img2 v hne
    obtain ⟨k, w⟩ := p
    by_cases hk : k = img
    · rw [show updateGT ((k, w) :: rest) img v = (k, v) :: rest from by rw [updateGT, if_pos hk]]
      rw [dictGet, dictGet]
      rw [if_neg (by omega), if_neg (by omega)]
    · rw [show updateGT ((k, w) :: rest) img v = (k, w) :: updateGT rest img v from by
        rw [updateGT, if_neg hk]]
      rw [dictGet, dictGet]
      by_cases hk2 : k = img2
      · rw [if_pos hk2, if_pos hk2]
      · rw [if_neg hk2, if_neg hk2]
        exact ih img img2 v hne

theorem computeMetrics_ok_length (metric : String) (pb : Box) (gbs : List Box)
    (ms : List ℚ) (h : computeMetrics metric pb gbs = .ok ms) : ms.length = gbs.length := by
  rw [computeMetrics] at h
  split at h
  · simp only [Except.ok.injEq] at h; subst h; simp
  · split at h
    · simp only [Except.ok.injEq] at h; subst h; simp
    · simp at h

theorem processPred_spec (metric : String) (thr : ℚ) (st : GTState) (pred : Prediction)
    (st2 : GTState) (tp fp : ℕ)
    (h : processPred metric thr st pred = .ok (st2, tp, fp)) :
    ((tp, fp) = (1, 0) ∨ (tp, fp) = (0, 1)) ∧
    countTrue st2 = countTrue st + tp ∧
    countEntries st2 = countEntries st ∧
    (∀ img j, flagAt st img j = true → flagAt st2 img j = true) := by
  simp only [processPred] at h
  split at h
  · simp only [Except.ok.injEq, Prod.mk.injEq] at h
    obtain ⟨h1, h2, h3⟩ := h
    subst h1; subst h2; subst h3
    exact ⟨Or.inr rfl, by omega, rfl, fun img j hf => hf⟩
  · rename_i hemp
    split at h
    · simp at h
    · rename_i ms hms
      split at h
      · rename_i best hfb
        split at h
        · rename_i hdet
          simp only [Except.ok.injEq, Prod.mk.injEq] at h
          obtain ⟨h1, h2, h3⟩ := h
          subst h1; subst h2; subst h3
          -- the selected candidate was fresh: a true positive that claims it
          obtain ⟨v, hd⟩ : ∃ v, dictGet st pred.image_id = some v := by
            cases hdc : dictGet st pred.image_id with
            | none => rw [hdc] at hemp; simp at hemp
            | some v => exact ⟨v, rfl⟩
          rw [hd] at hms hdet ⊢
          simp only [Option.getD_some] at hms hdet ⊢
          have hlen : best < v.length := by
            have ha := findBest_some_lt thr ms best hfb
            have hb := computeMetrics_ok_length metric pred.bbox (v.map (fun g => g.bbox)) ms hms
            simp only [List.length_map] at hb
            omega
          have hflag : flagD v best = false := hdet
          have hcnt := updateGT_counts st pred.image_id v (markDetected v best) hd
          have hmark := markDetected_count v best hlen hflag
          have hent := updateGT_entries st pred.image_id v (markDetected v best) hd
          have hmlen := markDetected_length v best
          refine ⟨by simp, by omega, by omega, ?_⟩
          intro img j hf
          by_cases himg : img = pred.image_id
          · rw [himg] at hf ⊢
            have hfv : flagD v j = true := by
              simpa [flagAt, hd] using hf
            simp only [flagAt, dictGet_updateGT_self st pred.image_id v (markDetected v best) hd,
              Option.getD_some]
            exact markDetected_flag_mono v best j hfv
          · simp only [flagAt, dictGet_updateGT_ne st pred.image_id img (markDetected v best) himg]
            exact hf
        · simp only [Except.ok.injEq, Prod.mk.injEq] at h
          obtain ⟨h1, h2, h3⟩ := h
          subst h1; subst h2; subst h3
          exact ⟨Or.inr rfl, by omega, rfl, fun img j hf => hf⟩
      · simp only [Except.ok.injEq, Prod.mk.injEq] at h
        obtain ⟨h1, h2, h3⟩ := h
        subst h1; subst h2; subst h3
        exact ⟨Or.inr rfl, by omega, rfl, fun img j hf => hf⟩

theorem runMatcher_spec (metric : String) (thr : ℚ) (preds : List Prediction) :
    ∀ (st : GTState) (l : List (ℕ × ℕ)),
    runMatcher metric thr st preds = .ok l →
    (∀ q ∈ l, q = (1, 0) ∨ q = (0, 1)) ∧
    countTrue st + (l.map (fun q => q.1)).sum ≤ countEntries st := by
  induction preds with
  | nil =>
    intro st l h
    simp only [runMatcher, Except.ok.injEq] at h
    subst h
    exact ⟨by simp, by simpa using countTrue_le_countEntries st⟩
  | cons p ps ih =>
    intro st l h
    rw [runMatcher] at h
    cases hp : processPred metric thr st p with
    | error e => rw [hp] at h; simp at h
    | ok r =>
      obtain ⟨st2, tp, fp⟩ := r
      simp only [hp] at h
      cases hr : runMatcher metric thr st2 ps with
      | error e => simp only [hr] at h; simp at h
      | ok rest =>
        simp only [hr, Except.ok.injEq] at h
        subst h
        obtain ⟨hpair, hcnt, hent, _⟩ := processPred_spec metric thr st p st2 tp fp hp
        obtain ⟨hmem, hsum⟩ := ih st2 rest hr
        constructor
        · intro q hq
          rcases List.mem_cons.mp hq with rfl | hq
          · exact hpair
          · exact hmem q hq
        · simp only [List.map_cons, List.sum_cons]
          omega

/-! ### Cumulative-sum lemmas -/

theorem cumsumGo_mem_le (l : List ℕ) : ∀ (acc x : ℕ), x ∈ cumsumGo acc l → x ≤ acc + l.sum := by
  induction l with
  | nil => intro acc x h; simp [cumsumGo] at h
  | cons a t ih =>
    intro acc x h
    simp only [cumsumGo] at h
    rcases List.mem_cons.mp h with rfl | h
    · simp only [List.sum_cons]
      omega
    · have := ih (acc + a) x h
      simp only [List.sum_cons]
      omega

theorem cumsumGo_head_ge (l : List ℕ) (acc y : ℕ) (h : y ∈ (cumsumGo acc l).head?) : acc ≤ y := by
  cases l with
  | nil => simp [cumsumGo] at h
  | cons a t =>
    simp only [cumsumGo, List.head?_cons, Option.mem_def, Option.some.injEq] at h
    omega

theorem cumsumGo_chain (l : List ℕ) : ∀ acc, List.Chain' (fun a b => a ≤ b) (cumsumGo acc l) := by
  induction l with
  | nil => intro acc; simp [cumsumGo]
  | cons a t ih =>
    intro acc
    simp only [cumsumGo]
    rw [List.chain'_cons']
    refine ⟨?_, ih (acc + a)⟩
    intro y hy
    exact cumsumGo_head_ge t (acc + a) y hy

theorem cumsum_chain (l : List ℕ) : List.Chain' (fun a b => a ≤ b) (cumsum l) :=
  cumsumGo_chain l 0

theorem cumsum_mem_le (l : List ℕ) (x : ℕ) (h : x ∈ cumsum l) : x ≤ l.sum := by
  have := cumsumGo_mem_le l 0 x h
  omega

theorem countTrue_initState (g : List (ℕ × List Box)) : countTrue (initState g) = 0 := by
  induction g with
  | nil => rfl
  | cons p rest ih =>
    obtain ⟨k, w⟩ := p
    rw [show initState ((k, w) :: rest) =
      (k, w.map (fun box => { bbox := box, detected := false })) :: initState rest from rfl]
    rw [countTrue_cons, ih]
    have : countTrueList (w.map (fun box => ({ bbox := box, detected := false } : GTEntry))) = 0 := by
      rw [countTrueList, List.countP_map]
      simp [Function.comp]
    omega

theorem countEntries_initState (g : List (ℕ × List Box)) :
    countEntries (initState g) = totalGT g := by
  induction g with
  | nil => rfl
  | cons p rest ih =>
    obtain ⟨k, w⟩ := p
    rw [show initState ((k, w) :: rest) =
      (k, w.map (fun box => { bbox := box, detected := false })) :: initState rest from rfl]
    rw [countEntries_cons, ih]
    simp [totalGT]

theorem eps_pos : 0 < eps := by rw [eps]; norm_num

theorem evaluateCore_ok_bounds (st : GTState) (total : ℕ) (preds : List Prediction)
    (metric : String) (thr : ℚ) (v : ℚ)
    (hcnt : countTrue st = 0) (hent : countEntries st = total)
    (h : evaluateCore st total preds metric thr = .ok v) : 0 ≤ v ∧ v ≤ 1 := by
  simp only [evaluateCore] at h
  cases hrun : runMatcher metric thr st (preds.mergeSort predCmp) with
  | error e => simp only [hrun] at h; simp at h
  | ok tpfp =>
    simp only [hrun] at h
    by_cases htot : total = 0
    · rw [if_pos htot] at h
      simp only [Except.ok.injEq] at h
      subst h
      by_cases hlen : preds.length > 0
      · rw [if_pos hlen]; norm_num
      · rw [if_neg hlen]; norm_num
    · rw [if_neg htot] at h
      simp only [Except.ok.injEq] at h
      subst h
      have hT : (0 : ℚ) < (total : ℚ) := by
        have : 0 < total := Nat.pos_of_ne_zero htot
        exact_mod_cast this
      have hsum : (tpfp.map (fun q => q.1)).sum ≤ total := by
        obtain ⟨-, hs⟩ := runMatcher_spec metric thr (preds.mergeSort predCmp) st tpfp hrun
        omega
      apply calculate_ap_bounds
      · rw [List.chain'_cons']
        constructor
        · intro y hy
          have hym := List.mem_of_mem_head? hy
          obtain ⟨t, -, rfl⟩ := List.mem_map.mp hym
          exact div_nonneg (Nat.cast_nonneg t) (le_of_lt hT)
        · rw [List.chain'_map]
          apply List.Chain'.imp _ (cumsum_chain _)
          intro a b hab
          exact (div_le_div_iff_of_pos_right hT).mpr (by exact_mod_cast hab)
      · intro x hx
        obtain ⟨t, ht, rfl⟩ := List.mem_map.mp hx
        rw [div_le_one hT]
        have h1 : t ≤ (tpfp.map (fun q => q.1)).sum := cumsum_mem_le _ t ht
        exact_mod_cast le_trans h1 hsum
      · intro x hx
        obtain ⟨q, -, rfl⟩ := List.mem_map.mp hx
        have h1 : (0 : ℚ) ≤ (q.1 : ℚ) := Nat.cast_nonneg _
        have h2 : (0 : ℚ) ≤ (q.2 : ℚ) := Nat.cast_nonneg _
        have h3 := eps_pos
        apply div_nonneg h1
        linarith
      · intro x hx
        obtain ⟨q, -, rfl⟩ := List.mem_map.mp hx
        have h1 : (0 : ℚ) ≤ (q.1 : ℚ) := Nat.cast_nonneg _
        have h2 : (0 : ℚ) ≤ (q.2 : ℚ) := Nat.cast_nonneg _
        have h3 := eps_pos
        rw [div_le_one (by linarith)]
        linarith

/-! ### Claim theorems -/

/-- C6: for every recall/precision input to the AP integrator, after prepending the
sentinel point (recall 0.0, precision 1.0) and applying the backward running-maximum
envelope adjustment, the resulting precision sequence is non-increasing from the
first index to the last. -/
theorem spec_c6_envelope_monotone (precisions : List ℚ) :
    List.Chain' (fun a b => b ≤ a) (envelope ((1 : ℚ) :: precisions)) :=
  envelope_chain _

/-- C7: for every pair of boxes with positive areas, the IoP value is greater than
or equal to the IoU value computed for that same pair, with the epsilon constant
in both denominators. -/
theorem spec_c7_iop_ge_iou (pred_box gt_box : Box)
    (hp : 0 < calculate_area pred_box) (hg : 0 < calculate_area gt_box) :
    iou_metric pred_box gt_box ≤ iop_metric pred_box gt_box := by
  have hI0 : 0 ≤ calculate_intersection pred_box gt_box :=
    calculate_intersection_nonneg pred_box gt_box
  obtain ⟨hw, hh⟩ := pos_area_dims gt_box hg
  have hIG : calculate_intersection pred_box gt_box ≤ calculate_area gt_box := by
    rw [pos_area_eq gt_box hg]
    exact calculate_intersection_le_area pred_box gt_box (le_of_lt hw) (le_of_lt hh)
  have he := eps_pos
  rw [iou_metric, iop_metric]
  exact div_le_div_of_nonneg_left hI0 (by linarith) (by linarith)

/-- Witness for C7 at the concrete pair `[0,0,10,10]`, `[0,0,5,5]`. -/
theorem spec_c7_witness :
    (0 < calculate_area ⟨0, 0, 10, 10⟩ ∧ 0 < calculate_area ⟨0, 0, 5, 5⟩) ∧
    iou_metric ⟨0, 0, 10, 10⟩ ⟨0, 0, 5, 5⟩ ≤ iop_metric ⟨0, 0, 10, 10⟩ ⟨0, 0, 5, 5⟩ := by
  have h1 : 0 < calculate_area ⟨0, 0, 10, 10⟩ := by norm_num [calculate_area]
  have h2 : 0 < calculate_area ⟨0, 0, 5, 5⟩ := by norm_num [calculate_area]
  exact ⟨⟨h1, h2⟩, spec_c7_iop_ge_iou _ _ h1 h2⟩

/-- C8: for every well-formed input, whenever the per-category evaluation returns an
AP value, that value lies in the closed interval `[0, 1]`. -/
theorem spec_c8_ap_in_unit_interval (ground_truths : List (ℕ × List Box))
    (predictions : List Prediction) (metric : String) (iou_threshold : ℚ) (v : ℚ)
    (h : evaluate_predictions_for_class ground_truths predictions metric iou_threshold
      = .ok v) : 0 ≤ v ∧ v ≤ 1 := by
  rw [evaluate_predictions_for_class] at h
  exact evaluateCore_ok_bounds _ _ _ _ _ _ (countTrue_initState ground_truths)
    (countEntries_initState ground_truths) h

/-- Witness for C8 at the empty input, where the evaluation returns exactly 1. -/
theorem spec_c8_witness :
    evaluate_predictions_for_class [] [] "iou" (1/2) = .ok 1 ∧ ((0:ℚ) ≤ 1 ∧ (1:ℚ) ≤ 1) := by
  have h : evaluate_predictions_for_class [] [] "iou" (1/2) = .ok 1 := by
    rw [evaluate_predictions_for_class, evaluateCore]
    simp [List.mergeSort_nil, runMatcher, initState, totalGT]
  exact ⟨h, spec_c8_ap_in_unit_interval [] [] "iou" (1/2) 1 h⟩

/-- C3: in the greedy matcher, a candidate is selected only if its metric value
strictly exceeds the configured threshold; among candidates the earliest one in
list order with the maximal metric value is selected (later candidates override
only on strictly greater value); and when no candidate exceeds the threshold the
prediction is labeled FalsePositive (the `(tp, fp) = (0, 1)` outcome). -/
theorem spec_c3_greedy_selection (metric : String) (iou_threshold : ℚ) (st : GTState)
    (pred : Prediction) (gt_list : List GTEntry)
    (hg : gt_list = (dictGet st pred.image_id).getD []) (hne : gt_list ≠ [])
    (ms : List ℚ)
    (hms : computeMetrics metric pred.bbox (gt_list.map (fun g => g.bbox)) = .ok ms) :
    (∀ i, findBest iou_threshold ms = some i → ∃ hi : i < ms.length,
        iou_threshold < ms[i] ∧
        (∀ n (hn : n < ms.length), ms[n] ≤ ms[i]) ∧
        (∀ n (hn : n < ms.length), n < i → ms[n] < ms[i])) ∧
    (findBest iou_threshold ms = none →
      processPred metric iou_threshold st pred = .ok (st, 0, 1)) := by
  constructor
  · intro i hi
    exact findBest_some_spec iou_threshold ms i hi
  · intro hnone
    have hfalse : gt_list.isEmpty = false := by
      cases gt_list with
      | nil => exact absurd rfl hne
      | cons a t => rfl
    simp only [processPred, ← hg, hfalse, Bool.false_eq_true, if_false, hms, hnone]

/-- Witness for C3: on a single perfectly overlapping candidate the loop selects
index 0, whose IoU value therefore exceeds the threshold 1/2. -/
theorem spec_c3_witness :
    (1 : ℚ)/2 < iou_metric ⟨0, 0, 10, 10⟩ ⟨0, 0, 10, 10⟩ := by
  have hgt : (1 : ℚ)/2 < iou_metric ⟨0, 0, 10, 10⟩ ⟨0, 0, 10, 10⟩ := by
    rw [iou_metric]
    norm_num [calculate_intersection, calculate_area, eps]
  have hms : computeMetrics "iou" (⟨0, 0, 10, 10⟩ : Box)
      (([⟨⟨0, 0, 10, 10⟩, false⟩] : List GTEntry).map (fun g => g.bbox)) =
      .ok [iou_metric ⟨0, 0, 10, 10⟩ ⟨0, 0, 10, 10⟩] := by
    simp [computeMetrics]
  have hfb : findBest (1/2) [iou_metric ⟨0, 0, 10, 10⟩ ⟨0, 0, 10, 10⟩] = some 0 := by
    rw [findBest, findBestGo, if_pos hgt]
    rfl
  obtain ⟨hlt, hthr, -, -⟩ :=
    (spec_c3_greedy_selection "iou" (1/2) [(1, [⟨⟨0, 0, 10, 10⟩, false⟩])]
      ⟨1, ⟨0, 0, 10, 10⟩, 9/10⟩ [⟨⟨0, 0, 10, 10⟩, false⟩] (by simp [dictGet])
      (by simp) _ hms).1 0 hfb
  simpa using hthr

/-- C9: each metric run rebuilds its matcher state from the raw ground-truth
collection with every `detected` flag false, and the per-class evaluation factors
through that fresh state; hence the result of the run under one metric is
unaffected by whether the run under the other metric was performed before it. -/
theorem spec_c9_independent_runs (ground_truths : List (ℕ × List Box))
    (predictions : List Prediction) (iou_threshold : ℚ) :
    (∀ p ∈ initState ground_truths, ∀ e ∈ p.2, e.detected = false) ∧
    evaluate_predictions_for_class ground_truths predictions "iou" iou_threshold =
      evaluateCore (initState ground_truths) (totalGT ground_truths) predictions
        "iou" iou_threshold ∧
    evaluate_predictions_for_class ground_truths predictions "iop" iou_threshold =
      evaluateCore (initState ground_truths) (totalGT ground_truths) predictions
        "iop" iou_threshold := by
  refine ⟨?_, rfl, rfl⟩
  intro p hp e he
  simp only [initState, List.mem_map] at hp
  obtain ⟨⟨k, w⟩, -, rfl⟩ := hp
  simp only [List.mem_map] at he
  obtain ⟨box, -, rfl⟩ := he
  rfl

/-- Witness for C9 at a concrete one-box ground-truth collection. -/
theorem spec_c9_witness :
    (⟨⟨0, 0, 1, 1⟩, false⟩ : GTEntry).detected = false := by
  obtain ⟨hflags, -, -⟩ :=
    spec_c9_independent_runs [(1, [⟨0, 0, 1, 1⟩])] [] (1/2)
  exact hflags (1, [⟨⟨0, 0, 1, 1⟩, false⟩]) (by simp [initState])
    ⟨⟨0, 0, 1, 1⟩, false⟩ (by simp)

theorem totalGT_zero_all_empty (g : List (ℕ × List Box)) (h0 : totalGT g = 0) :
    ∀ img, (dictGet (initState g) img).getD [] = [] := by
  induction g with
  | nil => intro img; rfl
  | cons p rest ih =>
    obtain ⟨k, w⟩ := p
    have hw : w.length = 0 ∧ totalGT rest = 0 := by
      rw [totalGT] at h0
      simp only [List.map_cons, List.sum_cons] at h0
      rw [totalGT]
      omega
    intro img
    rw [show initState ((k, w) :: rest) =
      (k, w.map (fun box => { bbox := box, detected := false })) :: initState rest from rfl]
    rw [dictGet]
    by_cases hk : k = img
    · rw [if_pos hk]
      rw [Option.getD_some]
      rw [List.length_eq_zero.mp hw.1]
      rfl
    · rw [if_neg hk]
      exact ih hw.2 img

theorem runMatcher_all_empty (metric : String) (thr : ℚ) (st : GTState)
    (hempty : ∀ img, (dictGet st img).getD [] = []) :
    ∀ preds : List Prediction,
      runMatcher metric thr st preds = .ok (preds.map (fun _ => (0, 1))) := by
  intro preds
  induction preds with
  | nil => rfl
  | cons p ps ih =>
    have hstep : processPred metric thr st p = .ok (st, 0, 1) := by
      simp only [processPred, hempty p.image_id, List.isEmpty_nil, if_true]
    rw [runMatcher]
    simp only [hstep, ih, List.map_cons]

/-- C5: for every input with total ground-truth count 0 and either metric, the
per-category evaluation returns exactly 0 when the prediction list is non-empty
and exactly 1 when the prediction list is empty. -/
theorem spec_c5_no_ground_truth (ground_truths : List (ℕ × List Box))
    (predictions : List Prediction) (metric : String) (iou_threshold : ℚ)
    (_hm : metric = "iou" ∨ metric = "iop") (h0 : totalGT ground_truths = 0) :
    (predictions ≠ [] →
      evaluate_predictions_for_class ground_truths predictions metric iou_threshold
        = .ok 0) ∧
    (predictions = [] →
      evaluate_predictions_for_class ground_truths predictions metric iou_threshold
        = .ok 1) := by
  have hrun := runMatcher_all_empty metric iou_threshold (initState ground_truths)
    (totalGT_zero_all_empty ground_truths h0) (predictions.mergeSort predCmp)
  rw [evaluate_predictions_for_class, evaluateCore]
  simp only [hrun, if_pos h0]
  constructor
  · intro hne
    rw [if_pos (List.length_pos.mpr hne)]
  · intro heq
    subst heq
    rfl

/-- Witness for C5: no ground truth and one prediction gives AP exactly 0. -/
theorem spec_c5_witness :
    totalGT [] = 0 ∧
    evaluate_predictions_for_class [] [⟨1, ⟨0, 0, 1, 1⟩, 1⟩] "iou" (1/2) = .ok 0 := by
  refine ⟨rfl, ?_⟩
  exact (spec_c5_no_ground_truth [] [⟨1, ⟨0, 0, 1, 1⟩, 1⟩] "iou" (1/2)
    (Or.inl rfl) rfl).1 (by simp)

theorem calculate_ap_nil : calculate_ap [] [] = 0 := by
  rw [calculate_ap]
  exact apSum_single 0 _

/-- C10: for every category with a positive total ground-truth count and an empty
prediction list, the per-category evaluation returns AP exactly 0 under both
metrics. -/
theorem spec_c10_empty_predictions (ground_truths : List (ℕ × List Box))
    (metric : String) (iou_threshold : ℚ)
    (_hm : metric = "iou" ∨ metric = "iop") (hpos : 0 < totalGT ground_truths) :
    evaluate_predictions_for_class ground_truths [] metric iou_threshold = .ok 0 := by
  rw [evaluate_predictions_for_class, evaluateCore]
  simp only [List.mergeSort_nil]
  rw [show runMatcher metric iou_threshold (initState ground_truths) [] = .ok [] from rfl]
  simp only [if_neg (by omega : ¬ totalGT ground_truths = 0)]
  rw [show cumsum (([] : List (ℕ × ℕ)).map (fun q => q.1)) = [] from rfl]
  rw [show cumsum (([] : List (ℕ × ℕ)).map (fun q => q.2)) = [] from rfl]
  simp only [List.map_nil, List.zip_nil_right, List.length_nil]
  rw [calculate_ap_nil]

/-- Witness for C10 at a one-box ground-truth collection. -/
theorem spec_c10_witness :
    0 < totalGT [(1, [⟨0, 0, 10, 10⟩])] ∧
    evaluate_predictions_for_class [(1, [⟨0, 0, 10, 10⟩])] [] "iop" (1/2) = .ok 0 := by
  refine ⟨by norm_num [totalGT], ?_⟩
  exact spec_c10_empty_predictions [(1, [⟨0, 0, 10, 10⟩])] "iop" (1/2)
    (Or.inr rfl) (by norm_num [totalGT])

/-- C4: within one evaluation run, a `detected` flag only ever goes from false to
true (never back), each TruePositive step claims exactly one fresh annotation
(the count of claimed annotations rises by exactly the emitted `tp`), a
prediction whose selected candidate is already claimed is labeled FalsePositive,
and on the concrete duplicate example (two predictions over one box, higher score
first) the ranked outcome sequence is `[TruePositive, FalsePositive]`. -/
theorem spec_c4_claimed_at_most_once :
    (∀ (metric : String) (thr : ℚ) (st : GTState) (pred : Prediction)
      (st2 : GTState) (tp fp : ℕ),
      processPred metric thr st pred = .ok (st2, tp, fp) →
        (∀ img j, flagAt st img j = true → flagAt st2 img j = true) ∧
        countTrue st2 = countTrue st + tp) ∧
    (∀ (metric : String) (thr : ℚ) (st : GTState) (pred : Prediction)
      (ms : List ℚ) (i : ℕ),
      computeMetrics metric pred.bbox
        (((dictGet st pred.image_id).getD []).map (fun g => g.bbox)) = .ok ms →
      findBest thr ms = some i →
      (((dictGet st pred.image_id).getD []).getD i dfltEntry).detected = true →
      processPred metric thr st pred = .ok (st, 0, 1)) ∧
    runMatcher "iou" (1/2) (initState [(1, [⟨0, 0, 10, 10⟩])])
      (([⟨1, ⟨0, 0, 10, 10⟩, 9/10⟩, ⟨1, ⟨0, 0, 10, 10⟩, 8/10⟩] :
        List Prediction).mergeSort predCmp)
      = .ok [(1, 0), (0, 1)] := by
  refine ⟨?_, ?_, ?_⟩
  · intro metric thr st pred st2 tp fp h
    obtain ⟨-, hcnt, -, hmono⟩ := processPred_spec metric thr st pred st2 tp fp h
    exact ⟨hmono, hcnt⟩
  · intro metric thr st pred ms i hms hfb hdet
    have hne : ((dictGet st pred.image_id).getD []) ≠ [] := by
      intro hcontra
      rw [hcontra] at hdet
      simp [List.getD, dfltEntry] at hdet
    have hfalse : ((dictGet st pred.image_id).getD []).isEmpty = false := by
      cases hc : (dictGet st pred.image_id).getD [] with
      | nil => exact absurd hc hne
      | cons a t => rfl
    simp only [processPred, hfalse, Bool.false_eq_true, if_false, hms, hfb]
    rw [if_neg (by rw [hdet]; simp)]
  · have hsort : ([⟨1, ⟨0, 0, 10, 10⟩, 9/10⟩, ⟨1, ⟨0, 0, 10, 10⟩, 8/10⟩] :
        List Prediction).mergeSort predCmp
        = [⟨1, ⟨0, 0, 10, 10⟩, 9/10⟩, ⟨1, ⟨0, 0, 10, 10⟩, 8/10⟩] := by
      apply List.mergeSort_of_sorted
      refine List.Pairwise.cons ?_ (List.Pairwise.cons (by simp) List.Pairwise.nil)
      intro b hb
      rw [List.mem_singleton] at hb
      subst hb
      simp only [predCmp, decide_eq_true_eq]
      norm_num
    rw [hsort]
    have hgt : (2 : ℚ)⁻¹ < iou_metric ⟨0, 0, 10, 10⟩ ⟨0, 0, 10, 10⟩ := by
      rw [iou_metric]
      norm_num [calculate_intersection, calculate_area, eps]
    have hms : computeMetrics "iou" (⟨0, 0, 10, 10⟩ : Box) [⟨0, 0, 10, 10⟩] =
        .ok [iou_metric ⟨0, 0, 10, 10⟩ ⟨0, 0, 10, 10⟩] := by
      simp [computeMetrics]
    have hfb : findBest (2 : ℚ)⁻¹ [iou_metric ⟨0, 0, 10, 10⟩ ⟨0, 0, 10, 10⟩] = some 0 := by
      rw [findBest, findBestGo, if_pos hgt]
      rfl
    have hstep1 : processPred "iou" (1/2) [(1, [⟨⟨0, 0, 10, 10⟩, false⟩])]
        ⟨1, ⟨0, 0, 10, 10⟩, 9/10⟩
        = .ok ([(1, [⟨⟨0, 0, 10, 10⟩, true⟩])], 1, 0) := by
      simp [processPred, dictGet, hms, hfb, markDetected, updateGT, dfltEntry]
    have hstep2 : processPred "iou" (1/2) [(1, [⟨⟨0, 0, 10, 10⟩, true⟩])]
        ⟨1, ⟨0, 0, 10, 10⟩, 8/10⟩
        = .ok ([(1, [⟨⟨0, 0, 10, 10⟩, true⟩])], 0, 1) := by
      simp [processPred, dictGet, hms, hfb, dfltEntry]
    have hinit : initState [(1, [(⟨0, 0, 10, 10⟩ : Box)])]
        = [(1, [⟨⟨0, 0, 10, 10⟩, false⟩])] := rfl
    rw [hinit, runMatcher]
    simp only [hstep1]
    rw [runMatcher]
    simp only [hstep2]
    rfl

/-- Witness for C4: the step invariant applied at a concrete FalsePositive step
(empty table keeps the claimed count unchanged). -/
theorem spec_c4_witness : countTrue [] = countTrue [] + 0 := by
  obtain ⟨-, hcnt⟩ := spec_c4_claimed_at_most_once.1 "iou" (1/2) []
    ⟨1, ⟨0, 0, 1, 1⟩, 1⟩ [] 0 1 rfl
  exact hcnt

theorem eval_perfect_match_iou :
    evaluate_predictions_for_class [(1, [⟨0, 0, 10, 10⟩])]
      [⟨1, ⟨0, 0, 10, 10⟩, 9/10⟩] "iou" (1/2) = .ok (100000000/100000001) := by
  rw [evaluate_predictions_for_class, evaluateCore, List.mergeSort_singleton]
  have hgt : (2 : ℚ)⁻¹ < iou_metric ⟨0, 0, 10, 10⟩ ⟨0, 0, 10, 10⟩ := by
    rw [iou_metric]
    norm_num [calculate_intersection, calculate_area, eps]
  have hms : computeMetrics "iou" (⟨0, 0, 10, 10⟩ : Box) [⟨0, 0, 10, 10⟩] =
      .ok [iou_metric ⟨0, 0, 10, 10⟩ ⟨0, 0, 10, 10⟩] := by
    simp [computeMetrics]
  have hfb : findBest (2 : ℚ)⁻¹ [iou_metric ⟨0, 0, 10, 10⟩ ⟨0, 0, 10, 10⟩] = some 0 := by
    rw [findBest, findBestGo, if_pos hgt]
    rfl
  have hstep1 : processPred "iou" (1/2) [(1, [⟨⟨0, 0, 10, 10⟩, false⟩])]
      ⟨1, ⟨0, 0, 10, 10⟩, 9/10⟩
      = .ok ([(1, [⟨⟨0, 0, 10, 10⟩, true⟩])], 1, 0) := by
    simp [processPred, dictGet, hms, hfb, markDetected, updateGT, dfltEntry]
  have hrun : runMatcher "iou" (1/2) (initState [(1, [⟨0, 0, 10, 10⟩])])
      [⟨1, ⟨0, 0, 10, 10⟩, 9/10⟩] = .ok [(1, 0)] := by
    rw [show initState [(1, [(⟨0, 0, 10, 10⟩ : Box)])]
      = [(1, [⟨⟨0, 0, 10, 10⟩, false⟩])] from rfl, runMatcher]
    simp only [hstep1]
    rfl
  simp only [hrun]
  norm_num [totalGT, cumsum, cumsumGo, calculate_ap, apSum, envelope, eps, max_def]

theorem eval_perfect_match_iop :
    evaluate_predictions_for_class [(1, [⟨0, 0, 10, 10⟩])]
      [⟨1, ⟨0, 0, 10, 10⟩, 9/10⟩] "iop" (1/2) = .ok (100000000/100000001) := by
  rw [evaluate_predictions_for_class, evaluateCore, List.mergeSort_singleton]
  have hgt : (2 : ℚ)⁻¹ < iop_metric ⟨0, 0, 10, 10⟩ ⟨0, 0, 10, 10⟩ := by
    rw [iop_metric]
    norm_num [calculate_intersection, calculate_area, eps]
  have hms : computeMetrics "iop" (⟨0, 0, 10, 10⟩ : Box) [⟨0, 0, 10, 10⟩] =
      .ok [iop_metric ⟨0, 0, 10, 10⟩ ⟨0, 0, 10, 10⟩] := by
    simp [computeMetrics]
  have hfb : findBest (2 : ℚ)⁻¹ [iop_metric ⟨0, 0, 10, 10⟩ ⟨0, 0, 10, 10⟩] = some 0 := by
    rw [findBest, findBestGo, if_pos hgt]
    rfl
  have hstep1 : processPred "iop" (1/2) [(1, [⟨⟨0, 0, 10, 10⟩, false⟩])]
      ⟨1, ⟨0, 0, 10, 10⟩, 9/10⟩
      = .ok ([(1, [⟨⟨0, 0, 10, 10⟩, true⟩])], 1, 0) := by
    simp [processPred, dictGet, hms, hfb, markDetected, updateGT, dfltEntry]
  have hrun : runMatcher "iop" (1/2) (initState [(1, [⟨0, 0, 10, 10⟩])])
      [⟨1, ⟨0, 0, 10, 10⟩, 9/10⟩] = .ok [(1, 0)] := by
    rw [show initState [(1, [(⟨0, 0, 10, 10⟩ : Box)])]
      = [(1, [⟨⟨0, 0, 10, 10⟩, false⟩])] from rfl, runMatcher]
    simp only [hstep1]
    rfl
  simp only [hrun]
  norm_num [totalGT, cumsum, cumsumGo, calculate_ap, apSum, envelope, eps, max_def]

/-- C1 counterexample: on the perfect-match input (one ground-truth box
`[0,0,10,10]` in image 1, one identical prediction with score 0.9, same
category), neither metric returns exactly 1.0. -/
theorem spec_c1_counterexample :
    evaluate_predictions_for_class [(1, [⟨0, 0, 10, 10⟩])]
      [⟨1, ⟨0, 0, 10, 10⟩, 9/10⟩] "iou" (1/2) ≠ .ok 1 ∧
    evaluate_predictions_for_class [(1, [⟨0, 0, 10, 10⟩])]
      [⟨1, ⟨0, 0, 10, 10⟩, 9/10⟩] "iop" (1/2) ≠ .ok 1 := by
  constructor
  · rw [eval_perfect_match_iou]
    intro h
    simp only [Except.ok.injEq] at h
    norm_num at h
  · rw [eval_perfect_match_iop]
    intro h
    simp only [Except.ok.injEq] at h
    norm_num at h

/-- C1 amended: on the perfect-match input, both metrics return exactly
`1/(1+1e-8) = 100000000/100000001` (approximately 0.99999999, not 1.0), because
the epsilon constant is added to the precision denominator. -/
theorem spec_c1_amended :
    evaluate_predictions_for_class [(1, [⟨0, 0, 10, 10⟩])]
      [⟨1, ⟨0, 0, 10, 10⟩, 9/10⟩] "iou" (1/2) = .ok (100000000/100000001) ∧
    evaluate_predictions_for_class [(1, [⟨0, 0, 10, 10⟩])]
      [⟨1, ⟨0, 0, 10, 10⟩, 9/10⟩] "iop" (1/2) = .ok (100000000/100000001) :=
  ⟨eval_perfect_match_iou, eval_perfect_match_iop⟩

theorem computeMetrics_invalid (metric : String) (pb : Box) (gbs : List Box)
    (hm1 : metric ≠ "iou") (hm2 : metric ≠ "iop") :
    computeMetrics metric pb gbs = .error ("Unknown metric: " ++ metric) := by
  simp [computeMetrics, hm1, hm2]

theorem processPred_invalid_empty (metric : String) (thr : ℚ) (st : GTState)
    (pred : Prediction) (hgl : (dictGet st pred.image_id).getD [] = []) :
    processPred metric thr st pred = .ok (st, 0, 1) := by
  simp only [processPred, hgl, List.isEmpty_nil, if_true]

theorem processPred_invalid_nonempty (metric : String) (thr : ℚ) (st : GTState)
    (pred : Prediction) (hm1 : metric ≠ "iou") (hm2 : metric ≠ "iop")
    (hgl : (dictGet st pred.image_id).getD [] ≠ []) :
    processPred metric thr st pred = .error ("Unknown metric: " ++ metric) := by
  have hfalse : ((dictGet st pred.image_id).getD []).isEmpty = false := by
    cases hc : (dictGet st pred.image_id).getD [] with
    | nil => exact absurd hc hgl
    | cons a t => rfl
  simp only [processPred, hfalse, Bool.false_eq_true, if_false,
    computeMetrics_invalid metric pred.bbox _ hm1 hm2]

theorem runMatcher_invalid_iff (metric : String) (thr : ℚ)
    (hm1 : metric ≠ "iou") (hm2 : metric ≠ "iop") (preds : List Prediction) :
    ∀ st : GTState,
    (∃ e, runMatcher metric thr st preds = .error e) ↔
      ∃ p ∈ preds, (dictGet st p.image_id).getD [] ≠ [] := by
  induction preds with
  | nil =>
    intro st
    constructor
    · rintro ⟨e, he⟩
      rw [show runMatcher metric thr st [] = .ok [] from rfl] at he
      exact Except.noConfusion he
    · rintro ⟨p, hp, -⟩
      exact absurd hp (List.not_mem_nil p)
  | cons p ps ih =>
    intro st
    by_cases hgl : (dictGet st p.image_id).getD [] = []
    · have hstep := processPred_invalid_empty metric thr st p hgl
      constructor
      · rintro ⟨e, he⟩
        rw [runMatcher] at he
        simp only [hstep] at he
        cases hrm : runMatcher metric thr st ps with
        | error e2 =>
          obtain ⟨q, hq, hql⟩ := (ih st).mp ⟨e2, hrm⟩
          exact ⟨q, List.mem_cons_of_mem p hq, hql⟩
        | ok rest =>
          rw [hrm] at he
          simp at he
      · rintro ⟨q, hq, hql⟩
        rcases List.mem_cons.mp hq with rfl | hq2
        · exact absurd hgl hql
        · obtain ⟨e, he⟩ := (ih st).mpr ⟨q, hq2, hql⟩
          refine ⟨e, ?_⟩
          rw [runMatcher]
          simp only [hstep, he]
    · constructor
      · intro h
        exact ⟨p, List.mem_cons_self p ps, hgl⟩
      · intro h
        refine ⟨"Unknown metric: " ++ metric, ?_⟩
        rw [runMatcher]
        simp only [processPred_invalid_nonempty metric thr st p hm1 hm2 hgl]

theorem evaluateCore_error_iff (st : GTState) (total : ℕ) (preds : List Prediction)
    (metric : String) (thr : ℚ) :
    (∃ e, evaluateCore st total preds metric thr = .error e) ↔
    (∃ e, runMatcher metric thr st (preds.mergeSort predCmp) = .error e) := by
  cases hrm : runMatcher metric thr st (preds.mergeSort predCmp) with
  | error e =>
    refine iff_of_true ⟨e, ?_⟩ ⟨e, rfl⟩
    simp only [evaluateCore, hrm]
  | ok tpfp =>
    apply iff_of_false
    · rintro ⟨e, he⟩
      simp only [evaluateCore, hrm] at he
      split at he <;> exact Except.noConfusion he
    · rintro ⟨e, he⟩
      exact Except.noConfusion he

theorem dictGet_initState (g : List (ℕ × List Box)) (img : ℕ) :
    dictGet (initState g) img =
      (dictGet g img).map (fun w => w.map (fun box => { bbox := box, detected := false })) := by
  induction g with
  | nil => rfl
  | cons p rest ih =>
    obtain ⟨k, w⟩ := p
    rw [show initState ((k, w) :: rest) =
      (k, w.map (fun box => { bbox := box, detected := false })) :: initState rest from rfl]
    rw [dictGet, dictGet]
    by_cases hk : k = img
    · rw [if_pos hk, if_pos hk]
      rfl
    · rw [if_neg hk, if_neg hk]
      exact ih

theorem initState_nonempty_iff (g : List (ℕ × List Box)) (img : ℕ) :
    (dictGet (initState g) img).getD [] ≠ [] ↔ (dictGet g img).getD [] ≠ [] := by
  rw [dictGet_initState]
  cases dictGet g img with
  | none => simp
  | some w => simp

/-- C2 counterexample: a call with the unknown metric name "foo" on empty
collections does not raise: it returns the AP value 1. -/
theorem spec_c2_counterexample :
    evaluate_predictions_for_class [] [] "foo" (1/2) = .ok 1 := by
  rw [evaluate_predictions_for_class, evaluateCore]
  simp [List.mergeSort_nil, runMatcher, initState, totalGT]

/-- C2 amended: with a metric name outside the two known ones, the evaluation
raises the unknown-metric error if and only if some prediction's image has a
non-empty ground-truth list (the metric is selected inside the per-prediction
loop); otherwise the call returns an AP value normally. -/
theorem spec_c2_amended (ground_truths : List (ℕ × List Box))
    (predictions : List Prediction) (metric : String) (iou_threshold : ℚ)
    (hm1 : metric ≠ "iou") (hm2 : metric ≠ "iop") :
    (∃ e, evaluate_predictions_for_class ground_truths predictions metric iou_threshold
      = .error e) ↔
    ∃ p ∈ predictions, (dictGet ground_truths p.image_id).getD [] ≠ [] := by
  simp only [evaluate_predictions_for_class]
  rw [evaluateCore_error_iff]
  rw [runMatcher_invalid_iff metric iou_threshold hm1 hm2 _ (initState ground_truths)]
  constructor
  · rintro ⟨p, hp, hne⟩
    exact ⟨p, (List.mergeSort_perm predictions predCmp).mem_iff.mp hp,
      (initState_nonempty_iff ground_truths p.image_id).mp hne⟩
  · rintro ⟨p, hp, hne⟩
    exact ⟨p, (List.mergeSort_perm predictions predCmp).mem_iff.mpr hp,
      (initState_nonempty_iff ground_truths p.image_id).mpr hne⟩

/-- Witness for C2: with metric "foo", one ground-truth box and one prediction in
the same image, the evaluation raises. -/
theorem spec_c2_witness :
    (("foo" : String) ≠ "iou" ∧ ("foo" : String) ≠ "iop") ∧
    ∃ e, evaluate_predictions_for_class [(1, [⟨0, 0, 1, 1⟩])]
      [⟨1, ⟨0, 0, 1, 1⟩, 1⟩] "foo" (1/2) = .error e := by
  refine ⟨⟨by decide, by decide⟩, ?_⟩
  apply (spec_c2_amended [(1, [⟨0, 0, 1, 1⟩])] [⟨1, ⟨0, 0, 1, 1⟩, 1⟩] "foo" (1/2)
    (by decide) (by decide)).mpr
  exact ⟨⟨1, ⟨0, 0, 1, 1⟩, 1⟩, by simp, by simp [dictGet]⟩
